import Mathlib

set_option maxRecDepth 4000

/-!
Shallow embedding of the assembler pipeline of `src/backend/src/asm.rs`
(the `cyber_miner` backend): the per-line classifier (`AssemblyLine::from_str`,
`parse_code`), the symbol validators (`LabelString::from_str`,
`Register::from_str`), the instruction encoder (`impl Read for OpCode<u8>`),
and the two-pass assembler (`assemble`).

Modelling conventions:
* Rust `String`/`&str` is `Str := List Char`; `u8` values are `Nat` with
  explicit wrap/overflow handling where the source has it.
* The two 256-byte memory images are total functions `Nat → Nat`; only
  indices 0..255 are ever read or written by the embedded code.
* Rust `HashMap`s are association lists kept in insertion order; the source
  iterates `HashMap`s in arbitrary order, and every fact proved below is
  independent of that order.
* Fallible Rust functions returning `Result` become `Except`.
-/

abbrev Str := List Char

instance {e a : Type} [DecidableEq e] [DecidableEq a] : DecidableEq (Except e a) := fun x y =>
  match x, y with
  | .ok v, .ok w => if h : v = w then .isTrue (by rw [h]) else .isFalse (by simp [h])
  | .error v, .error w => if h : v = w then .isTrue (by rw [h]) else .isFalse (by simp [h])
  | .ok _, .error _ => .isFalse (by simp)
  | .error _, .ok _ => .isFalse (by simp)

/-- Models Rust `char::is_whitespace` (the Unicode `White_Space` property). -/
def isWs (c : Char) : Bool :=
  c.toNat == 9 || c.toNat == 10 || c.toNat == 11 || c.toNat == 12 || c.toNat == 13 ||
  c.toNat == 32 || c.toNat == 133 || c.toNat == 160 || c.toNat == 5760 ||
  (decide (8192 ≤ c.toNat) && decide (c.toNat ≤ 8202)) ||
  c.toNat == 8232 || c.toNat == 8233 ||
  c.toNat == 8239 || c.toNat == 8287 || c.toNat == 12288

/-- Models Rust `str::to_lowercase` on the ASCII range (all inputs the
backend's claims exercise are ASCII). -/
def asciiLower (c : Char) : Char :=
  if 65 ≤ c.toNat ∧ c.toNat ≤ 90 then Char.ofNat (c.toNat + 32) else c

def toLowerStr (s : Str) : Str := s.map asciiLower

/-- Helper for `splitWs`: walks the characters, accumulating the current
token (reversed) in `acc`. -/
def splitWsAux : Str → Str → List Str
  | [], acc => if acc.isEmpty then [] else [acc.reverse]
  | c :: cs, acc =>
    if isWs c then
      if acc.isEmpty then splitWsAux cs [] else acc.reverse :: splitWsAux cs []
    else splitWsAux cs (c :: acc)

/-- Models Rust `s.trim().split_whitespace()` (the `trim` is subsumed by
`split_whitespace`, which already skips leading/trailing whitespace). -/
def splitWs (s : Str) : List Str := splitWsAux s []

/-- Helper for `rustLines`: splits on `'\n'` into segments. -/
def splitNlAux : Str → Str → List Str
  | [], acc => [acc.reverse]
  | c :: cs, acc =>
    if c = '\n' then acc.reverse :: splitNlAux cs [] else splitNlAux cs (c :: acc)

/-- Strips one trailing `'\r'`, as Rust `str::lines` does per line. -/
def stripCr (s : Str) : Str :=
  if s.getLast? = some '\r' then s.dropLast else s

/-- Models Rust `str::lines`: split on `'\n'`, drop a final empty segment
(so a trailing newline yields no extra empty line), strip one `'\r'` per line. -/
def rustLines (s : Str) : List Str :=
  let segs := splitNlAux s []
  let segs := match segs.getLast? with
    | some [] => segs.dropLast
    | _ => segs
  segs.map stripCr

/-- Decimal digit value of a character, if it is an ASCII digit. -/
def digitVal (c : Char) : Option Nat :=
  if 48 ≤ c.toNat ∧ c.toNat ≤ 57 then some (c.toNat - 48) else none

def parseDigitsAux : Str → Nat → Option Nat
  | [], acc => some acc
  | c :: cs, acc =>
    match digitVal c with
    | some d => parseDigitsAux cs (acc * 10 + d)
    | none => none

/-- Models Rust `u8::from_str`: an optional leading `'+'`, then one or more
ASCII digits, with the value required to fit in 8 bits (Rust reports
overflow during accumulation; checking the final value is equivalent for
the `Ok`/`Err` outcome). A leading `'-'` is not accepted for `u8`. -/
def parseU8 (s : Str) : Option Nat :=
  let s' := match s with
    | '+' :: rest => rest
    | _ => s
  match s' with
  | [] => none
  | _ =>
    match parseDigitsAux s' 0 with
    | some v => if v ≤ 255 then some v else none
    | none => none

/-- The closed register set of `asm.rs`. -/
inductive Register where
  | RGA | RGB | RGC | RGD | RET | MEM
  deriving DecidableEq

/-- Models `impl Into<u8> for &Register`. -/
def Register.toByte : Register → Nat
  | .RGA => 0
  | .RGB => 1
  | .RGC => 2
  | .RGD => 3
  | .RET => 4
  | .MEM => 5

inductive RegisterParseError where
  | InvalidRegister
  deriving DecidableEq

/-- Models `impl FromStr for Register`: case-insensitive exact match of the
six `%`-prefixed mnemonics. -/
def Register.fromStr (s : Str) : Except RegisterParseError Register :=
  let ls := toLowerStr s
  if ls = "%rga".data then .ok .RGA
  else if ls = "%rgb".data then .ok .RGB
  else if ls = "%rgc".data then .ok .RGC
  else if ls = "%rgd".data then .ok .RGD
  else if ls = "%ret".data then .ok .RET
  else if ls = "%mem".data then .ok .MEM
  else .error .InvalidRegister

/-- `LabelParseError` of the source. `BadSigil` is the source's first
variant (the token lacked the `$`/`@` sigil). -/
inductive LabelParseError where
  | BadSigil
  | NumericName
  | RegisterName
  deriving DecidableEq

/-- Models `impl FromStr for LabelString`: requires a `$`/`@` sigil, strips
every leading `'$'` and then every leading `'@'` (`trim_start_matches`),
lower-cases the body, and rejects numeric or register-colliding bodies. -/
def labelFromStr (s : Str) : Except LabelParseError Str :=
  if s.head? = some '$' ∨ s.head? = some '@' then
    let label := toLowerStr ((s.dropWhile (fun c => c = '$')).dropWhile (fun c => c = '@'))
    if (parseU8 label).isSome then .error .NumericName
    else
      match Register.fromStr ('%' :: label) with
      | .ok _ => .error .RegisterName
      | .error _ => .ok label
  else .error .BadSigil

/-- `OpCode<L>` of the source: `L` is the label operand type, `LabelString`
(here `Str`) before resolution and `u8` (here `Nat`) after. The Rust fields
`to` and `from` are named `dst` and `src` here (both are Lean keywords). -/
inductive OpCode (L : Type) where
  | Add | Sub | Mul | Div
  | Jmp (label : L)
  | JmpCondition (label : L)
  | MovReg (dst : Register) (src : Register)
  | MovImm (dst : Register) (src : Nat)
  | MovAddr (dst : Register) (src : L)
  | StackGet | StackSet | Exec | Return
  | CmpCallAddr (component : L)
  | CmpCallImm (component : Nat)
  | Forward | Rotate | Break | Battery
  | InventoryGet | InventoryDrop | InventoryItem
  | Output | Noop
  deriving DecidableEq

/-- `AssemblyLine` of the source (a `LabelString` is its body `Str`). -/
inductive AssemblyLine where
  | EmptyLine
  | Label (name : Str)
  | MemoryDeclaration (label : Str) (value : Nat)
  | Op (op : OpCode Str)
  deriving DecidableEq

inductive AssemblyLineParseError where
  | LetMissingLabel
  | LetInvalidLabel (e : LabelParseError)
  | LetMissingEquals
  | LetInvalidValue
  | JmpMissingArgument
  | JmpInvalidArgument (e : LabelParseError)
  | JmpcMissingArgument
  | JmpcInvalidArgument (e : LabelParseError)
  | MovMissingTo
  | MovInvalidToRegister (e : RegisterParseError)
  | MovMissingFrom
  | MovInvalidFrom (e : LabelParseError)
  | CmpCallMissingComponent
  | InvalidLabel (e : LabelParseError)
  | InvalidInstruction
  deriving DecidableEq

/-- Rust `trim_end_matches(':')`: strips every trailing colon. -/
def trimColons (s : Str) : Str := (s.reverse.dropWhile (fun c => c = ':')).reverse

/-- The token-level body of `AssemblyLine::from_str`: the token list plays
the role of the `split_whitespace` iterator. -/
def fromTokens : List Str → Except AssemblyLineParseError AssemblyLine
  | [] => .ok .EmptyLine
  | tok :: rest =>
    if tok.take 2 = "//".data then .ok .EmptyLine
    else
      let first := toLowerStr tok
      if first = "let".data then
        match rest with
        | [] => .error .LetMissingLabel
        | labelTok :: rest2 =>
          match labelFromStr (toLowerStr labelTok) with
          | .error e => .error (.LetInvalidLabel e)
          | .ok label =>
            match rest2 with
            | [] => .error .LetMissingEquals
            | eqTok :: rest3 =>
              if eqTok = "=".data then
                match parseU8 (rest3.headD ("0".data)) with
                | none => .error .LetInvalidValue
                | some v => .ok (.MemoryDeclaration label v)
              else .error .LetMissingEquals
      else if first = "add".data then .ok (.Op .Add)
      else if first = "sub".data then .ok (.Op .Sub)
      else if first = "mul".data then .ok (.Op .Mul)
      else if first = "div".data then .ok (.Op .Div)
      else if first = "jmp".data then
        match rest with
        | [] => .error .JmpMissingArgument
        | labelTok :: _ =>
          match labelFromStr (toLowerStr labelTok) with
          | .ok label => .ok (.Op (.Jmp label))
          | .error e => .error (.JmpInvalidArgument e)
      else if first = "jmpc".data then
        match rest with
        | [] => .error .JmpcMissingArgument
        | labelTok :: _ =>
          match labelFromStr (toLowerStr labelTok) with
          | .ok label => .ok (.Op (.JmpCondition label))
          | .error e => .error (.JmpcInvalidArgument e)
      else if first = "mov".data then
        match rest with
        | [] => .error .MovMissingTo
        | toTok :: rest2 =>
          match Register.fromStr toTok with
          | .error e => .error (.MovInvalidToRegister e)
          | .ok dst =>
            match rest2 with
            | [] => .error .MovMissingFrom
            | fromTok :: _ =>
              match Register.fromStr fromTok with
              | .ok r => .ok (.Op (.MovReg dst r))
              | .error _ =>
                match parseU8 fromTok with
                | some imm => .ok (.Op (.MovImm dst imm))
                | none =>
                  match labelFromStr fromTok with
                  | .ok l => .ok (.Op (.MovAddr dst l))
                  | .error e => .error (.MovInvalidFrom e)
      else if first = "stac_g".data then .ok (.Op .StackGet)
      else if first = "stac_s".data then .ok (.Op .StackSet)
      else if first = "exec".data then .ok (.Op .Exec)
      else if first = "return".data then .ok (.Op .Return)
      else if first = "cmp_call".data then
        match rest with
        | [] => .error .CmpCallMissingComponent
        | comp :: _ =>
          match parseU8 comp with
          | some imm => .ok (.Op (.CmpCallImm imm))
          | none =>
            match labelFromStr comp with
            | .ok l => .ok (.Op (.CmpCallAddr l))
            | .error e => .error (.MovInvalidFrom e)
      else if first = "fwd".data then .ok (.Op .Forward)
      else if first = "rot".data then .ok (.Op .Rotate)
      else if first = "brk".data then .ok (.Op .Break)
      else if first = "bttry".data then .ok (.Op .Battery)
      else if first = "inven".data then .ok (.Op .InventoryGet)
      else if first = "drop".data then .ok (.Op .InventoryDrop)
      else if first = "item".data then .ok (.Op .InventoryItem)
      else if first = "out".data then .ok (.Op .Output)
      else if first = "noop".data then .ok (.Op .Noop)
      else if first.getLast? = some ':' then
        match labelFromStr ('$' :: trimColons first) with
        | .ok label => .ok (.Label label)
        | .error e => .error (.InvalidLabel e)
      else .error .InvalidInstruction

/-- Models `AssemblyLine::from_str`. -/
def assemblyLineFromStr (s : Str) : Except AssemblyLineParseError AssemblyLine :=
  fromTokens (splitWs s)

/-- `CodeError` of `api.rs`: a zero-based line index with its parse error. -/
structure CodeError where
  line : Nat
  error : AssemblyLineParseError
  deriving DecidableEq

/-- The loop body of `parse_code`: classifies every line starting at index
`n`, accumulating valid nodes and per-line errors separately. -/
def classifyAll : List Str → Nat → List AssemblyLine × List CodeError
  | [], _ => ([], [])
  | l :: rest, n =>
    let r := classifyAll rest (n + 1)
    match assemblyLineFromStr l with
    | .ok node => (node :: r.1, r.2)
    | .error e => (r.1, { line := n, error := e } :: r.2)

/-- Models `parse_code`: classify every line of the source text; return the
node list if no line errored, otherwise the error list. -/
def parse_code (code : Str) : Except (List CodeError) (List AssemblyLine) :=
  let r := classifyAll (rustLines code) 0
  if r.2.isEmpty then .ok r.1 else .error r.2


/-! ## The instruction encoder and the two-pass assembler -/

/-- A 256-byte memory image; only indices 0..255 are meaningful. -/
abbrev Mem := Nat → Nat

def memWrite (m : Mem) (i v : Nat) : Mem := fun j => if j = i then v else m j

def writeBytes (m : Mem) (i : Nat) : List Nat → Mem
  | [] => m
  | b :: bs => writeBytes (memWrite m i b) (i + 1) bs

/-- The canonical byte sequence of a resolved instruction: the first `len`
bytes of the scratch array `op` filled by `impl Read for OpCode<u8>`
(opcode byte, then 0-2 operand bytes). -/
def opBytes : OpCode Nat → List Nat
  | .Add => [0]
  | .Sub => [1]
  | .Mul => [2]
  | .Div => [3]
  | .Jmp label => [4, label]
  | .JmpCondition label => [5, label]
  | .MovReg dst src => [6, dst.toByte, src.toByte]
  | .MovImm dst src => [7, dst.toByte, src]
  | .MovAddr dst src => [8, dst.toByte, src]
  | .StackGet => [9]
  | .StackSet => [10]
  | .Exec => [11]
  | .Return => [12]
  | .CmpCallAddr component => [13, component]
  | .CmpCallImm component => [14, component]
  | .Forward => [15]
  | .Rotate => [16]
  | .Break => [17]
  | .Battery => [18]
  | .InventoryGet => [19]
  | .InventoryDrop => [20]
  | .InventoryItem => [21]
  | .Output => [22]
  | .Noop => [23]

/-- Models `impl Read for OpCode<u8>`: the source checks
`buf.len() >= op.len()` where `op` is the fixed `[0u8; 3]` scratch array,
so the capacity test compares against 3, not against the instruction's
encoded length; on success exactly the instruction's bytes are produced. -/
def opcodeRead (op : OpCode Nat) (bufLen : Nat) : Option (List Nat) :=
  if 3 ≤ bufLen then some (opBytes op) else none

/-- Models `OpCode::<LabelString>::placeholder_labels`: the resolved opcode
with a zero placeholder for a label operand, plus, for label-bearing
instructions, `(is_program_label, arg_offset, label_name)`. -/
def placeholder_labels : OpCode Str → OpCode Nat × Option (Bool × Nat × Str)
  | .Add => (.Add, none)
  | .Sub => (.Sub, none)
  | .Mul => (.Mul, none)
  | .Div => (.Div, none)
  | .Jmp label => (.Jmp 0, some (true, 1, label))
  | .JmpCondition label => (.JmpCondition 0, some (true, 1, label))
  | .MovReg dst src => (.MovReg dst src, none)
  | .MovImm dst src => (.MovImm dst src, none)
  | .MovAddr dst src => (.MovAddr dst 0, some (false, 2, src))
  | .StackGet => (.StackGet, none)
  | .StackSet => (.StackSet, none)
  | .Exec => (.Exec, none)
  | .Return => (.Return, none)
  | .CmpCallAddr component => (.CmpCallAddr 0, some (false, 1, component))
  | .CmpCallImm component => (.CmpCallImm component, none)
  | .Forward => (.Forward, none)
  | .Rotate => (.Rotate, none)
  | .Break => (.Break, none)
  | .Battery => (.Battery, none)
  | .InventoryGet => (.InventoryGet, none)
  | .InventoryDrop => (.InventoryDrop, none)
  | .InventoryItem => (.InventoryItem, none)
  | .Output => (.Output, none)
  | .Noop => (.Noop, none)

/-- `AssemblingError` of the source (`MemoryOverflow` carries an opaque
`io::Error` in Rust, dropped here). -/
inductive AssemblingError where
  | DuplicateLabel (name : Str) (first_defined redefined : Nat)
  | DuplicateMemory (name : Str) (first_defined redefined : Nat)
  | MemoryOverflow
  | PointerOverflow
  | InvalidLabel
  | InvalidMemoryLabel
  deriving DecidableEq

/-- First-match association-list lookup, modelling `HashMap::get`. -/
def alookup {β : Type} (k : Str) : List (Str × β) → Option β
  | [] => none
  | (k', v) :: rest => if k' = k then some v else alookup k rest

/-- Models `need_labels.entry(name).and_modify(|v| v.push(off)).or_insert_with(|| vec![off])`. -/
def addNeed (k : Str) (off : Nat) : List (Str × List Nat) → List (Str × List Nat)
  | [] => [(k, [off])]
  | (k', v) :: rest =>
    if k' = k then (k', v ++ [off]) :: rest else (k', v) :: addNeed k off rest

/-- Models `need_memory_labels.entry(name).and_modify(|v| v.push(off)).or_insert_with(|| vec![])`
— note the `or_insert_with` arm inserts an EMPTY vector in the source. -/
def addNeedMemory (k : Str) (off : Nat) : List (Str × List Nat) → List (Str × List Nat)
  | [] => [(k, [])]
  | (k', v) :: rest =>
    if k' = k then (k', v ++ [off]) :: rest else (k', v) :: addNeedMemory k off rest

/-- The scratch state of `assemble`'s pass 1. The `refs` field is ghost
instrumentation absent from the source: it records, for every encoded
instruction whose operand is a program label, the `(label name, operand
byte offset)` pair, whether the reference was patched eagerly or queued in
`need_labels`. It is never read by the assembler itself. -/
structure Pass1State where
  label_locations : List (Str × Nat × Nat)
  memory_locations : List (Str × Nat × Nat × Nat)
  need_labels : List (Str × List Nat)
  need_memory_labels : List (Str × List Nat)
  cur_offset : Nat
  cur_data_offset : Nat
  bios : Mem
  refs : List (Str × Nat)

/-- The `if let Some((is_program_label, arg_offset, label_name)) = label_info`
block of pass 1: patch a backward reference eagerly or queue a fixup.
`bios1` is the image after the placeholder bytes were written. The ghost
`refs` field records program-label operand slots (see `Pass1State`). -/
def applyLabelInfo (st : Pass1State) (bios1 : Mem) :
    Option (Bool × Nat × Str) → Pass1State
  | none => { st with bios := bios1 }
  | some (is_program_label, arg_offset, label_name) =>
    let label_offset := st.cur_offset + arg_offset
    match is_program_label with
    | true =>
      match alookup label_name st.label_locations with
      | some (_, label_address) =>
        { st with bios := memWrite bios1 label_offset label_address,
                  refs := st.refs ++ [(label_name, label_offset)] }
      | none =>
        { st with bios := bios1,
                  need_labels := addNeed label_name label_offset st.need_labels,
                  refs := st.refs ++ [(label_name, label_offset)] }
    | false =>
      match alookup label_name st.memory_locations with
      | some (_, memory_address, _) =>
        { st with bios := memWrite bios1 label_offset memory_address }
      | none =>
        { st with bios := bios1,
                  need_memory_labels :=
                    addNeedMemory label_name label_offset st.need_memory_labels }

/-- The `Op(opcode)` arm of pass 1: encode at `cur_offset` (the slice
`&mut bios_memory[cur_offset..]` has `256 - cur_offset` bytes), patch or
queue a label operand, and advance the cursor with `checked_add`. -/
def pass1Op (st : Pass1State) (opcode : OpCode Str) : Except (AssemblingError × Mem) Pass1State :=
  let pl := placeholder_labels opcode
  if 3 ≤ 256 - st.cur_offset then
    let bytes := opBytes pl.1
    let st1 := applyLabelInfo st (writeBytes st.bios st.cur_offset bytes) pl.2
    if st.cur_offset + bytes.length ≤ 255 then
      .ok { st1 with cur_offset := st.cur_offset + bytes.length }
    else .error (.PointerOverflow, st1.bios)
  else .error (.MemoryOverflow, st.bios)

/-- One iteration of `assemble`'s pass-1 loop. The data cursor advances by
an unchecked `+= 1` in the source; its release-mode wrapping semantics is
`% 256` (a debug build would panic instead). -/
def pass1Line (st : Pass1State) (cur_line_num : Nat) :
    AssemblyLine → Except (AssemblingError × Mem) Pass1State
  | .EmptyLine => .ok st
  | .Label name =>
    match alookup name st.label_locations with
    | some (defined_line, _) =>
      .error (.DuplicateLabel name defined_line cur_line_num, st.bios)
    | none =>
      .ok { st with label_locations :=
        st.label_locations ++ [(name, (cur_line_num, st.cur_offset))] }
  | .MemoryDeclaration label value =>
    match alookup label st.memory_locations with
    | some (defined_line, _, _) =>
      .error (.DuplicateMemory label defined_line cur_line_num, st.bios)
    | none =>
      .ok { st with
        memory_locations :=
          st.memory_locations ++ [(label, (cur_line_num, st.cur_data_offset, value))],
        cur_data_offset := (st.cur_data_offset + 1) % 256 }
  | .Op opcode => pass1Op st opcode

def pass1Go : List AssemblyLine → Nat → Pass1State → Except (AssemblingError × Mem) Pass1State
  | [], _, st => .ok st
  | l :: rest, n, st =>
    match pass1Line st n l with
    | .error e => .error e
    | .ok st' => pass1Go rest (n + 1) st'

def pass1Init (bios_memory : Mem) : Pass1State :=
  { label_locations := [], memory_locations := [], need_labels := [],
    need_memory_labels := [], cur_offset := 0, cur_data_offset := 0,
    bios := bios_memory, refs := [] }

/-- Pass 1 of `assemble`: lines 583-645 of `asm.rs`. -/
def pass1 (code : List AssemblyLine) (bios_memory : Mem) :
    Except (AssemblingError × Mem) Pass1State :=
  pass1Go code 0 (pass1Init bios_memory)

/-- The inner loop of pass 2 for one pending program label: the source
looks the label up once per recorded offset and patches `bios_memory`. -/
def patchList (labels : List (Str × Nat × Nat)) (name : Str) :
    List Nat → Mem → Except (AssemblingError × Mem) Mem
  | [], mem => .ok mem
  | off :: rest, mem =>
    match alookup name labels with
    | some (_, label_address) => patchList labels name rest (memWrite mem off label_address)
    | none => .error (.InvalidLabel, mem)

/-- Pass 2 over `need_labels` (iteration order of the `HashMap` is modelled
as insertion order; all facts proved about it are order-independent). -/
def patchNeeds (labels : List (Str × Nat × Nat)) :
    List (Str × List Nat) → Mem → Except (AssemblingError × Mem) Mem
  | [], mem => .ok mem
  | (name, offsets) :: rest, mem =>
    match patchList labels name offsets mem with
    | .ok mem1 => patchNeeds labels rest mem1
    | .error e => .error e

/-- The inner loop of pass 2 for one pending data label. Faithful to the
source's slip: the patch is written to `data_memory`, not `bios_memory`. -/
def patchMemList (memory_locations : List (Str × Nat × Nat × Nat)) (name : Str) :
    List Nat → Mem → Except (AssemblingError × Mem) Mem
  | [], mem => .ok mem
  | off :: rest, mem =>
    match alookup name memory_locations with
    | some (_, label_address, _) =>
      patchMemList memory_locations name rest (memWrite mem off label_address)
    | none => .error (.InvalidMemoryLabel, mem)

def patchMemNeeds (memory_locations : List (Str × Nat × Nat × Nat)) :
    List (Str × List Nat) → Mem → Except (AssemblingError × Mem) Mem
  | [], mem => .ok mem
  | (name, offsets) :: rest, mem =>
    match patchMemList memory_locations name offsets mem with
    | .ok mem1 => patchMemNeeds memory_locations rest mem1
    | .error e => .error e

/-- Finalization: wipe the whole data image to zero, then write every
declared data label's initial value at its recorded offset (so the
pass-2 data patches above are discarded, as in the source). -/
def finalizeData (memory_locations : List (Str × Nat × Nat × Nat)) : Mem :=
  memory_locations.foldl (fun d p => memWrite d p.2.2.1 p.2.2.2) (fun _ => 0)

/-- The outcome of `assemble`: Rust mutates the two images through `&mut`
references, so both the success and the error outcome carry the buffers'
final contents. -/
inductive AsmResult where
  | ok (bios_memory data_memory : Mem)
  | err (e : AssemblingError) (bios_memory data_memory : Mem)

/-- Models `assemble` (lines 562-685 of `asm.rs`): pass 1, pass 2 over
program-label fixups, pass 2 over data-label fixups (written to the data
image per the source), then data-image finalization. -/
def assemble (code : List AssemblyLine) (bios_memory data_memory : Mem) : AsmResult :=
  match pass1 code bios_memory with
  | .error (e, b) => .err e b data_memory
  | .ok st =>
    match patchNeeds st.label_locations st.need_labels st.bios with
    | .error (e, b) => .err e b data_memory
    | .ok bios2 =>
      match patchMemNeeds st.memory_locations st.need_memory_labels data_memory with
      | .error (e, d) => .err e bios2 d
      | .ok _ => .ok bios2 (finalizeData st.memory_locations)

/-- Whether `assemble` succeeded. -/
def AsmResult.isOkB : AsmResult → Bool
  | .ok _ _ => true
  | .err _ _ _ => false

/-- The instruction image's byte at `i`, when `assemble` succeeded. -/
def AsmResult.biosAt : AsmResult → Nat → Option Nat
  | .ok b _, i => some (b i)
  | .err _ _ _, _ => none

/-- The instruction image's byte at `i`, when `assemble` failed. -/
def AsmResult.errBiosAt : AsmResult → Nat → Option Nat
  | .err _ b _, i => some (b i)
  | .ok _ _, _ => none

/-- The data image's byte at `i`, when `assemble` failed. -/
def AsmResult.errDataAt : AsmResult → Nat → Option Nat
  | .err _ _ d, i => some (d i)
  | .ok _ _, _ => none

/-- The data-memory offset pass 1 assigned to data label `n`. -/
def dataOffsetAt (code : List AssemblyLine) (bios_memory : Mem) (n : Str) : Option Nat :=
  match pass1 code bios_memory with
  | .ok st => (alookup n st.memory_locations).map (fun p => p.2.1)
  | .error _ => none

def zeroMem : Mem := fun _ => 0


/-! ## Helper lemmas about the scratch structures -/

theorem memWrite_self (m : Mem) (i v : Nat) : memWrite m i v i = v := by
  simp [memWrite]

theorem memWrite_ne (m : Mem) (i v j : Nat) (h : j ≠ i) : memWrite m i v j = m j := by
  simp [memWrite, h]

theorem writeBytes_lt (bs : List Nat) : ∀ (m : Mem) (i j : Nat), j < i →
    writeBytes m i bs j = m j := by
  induction bs with
  | nil => intro m i j _; rfl
  | cons b bs ih =>
    intro m i j hj
    have : writeBytes (memWrite m i b) (i + 1) bs j = memWrite m i b j :=
      ih _ _ _ (Nat.lt_succ_of_lt hj)
    rw [writeBytes, this, memWrite_ne _ _ _ _ (Nat.ne_of_lt hj)]

theorem alookup_append_some {β : Type} {k : Str} {xs : List (Str × β)} {v : β}
    (ys : List (Str × β)) (h : alookup k xs = some v) : alookup k (xs ++ ys) = some v := by
  induction xs with
  | nil => simp [alookup] at h
  | cons p rest ih =>
    rw [List.cons_append, alookup]
    rw [alookup] at h
    by_cases hk : p.1 = k
    · simpa [hk] using h
    · simp only [hk, if_false] at h ⊢
      exact ih h

theorem alookup_append_none {β : Type} {k : Str} {xs : List (Str × β)}
    (ys : List (Str × β)) (h : alookup k xs = none) :
    alookup k (xs ++ ys) = alookup k ys := by
  induction xs with
  | nil => rfl
  | cons p rest ih =>
    rw [List.cons_append, alookup]
    rw [alookup] at h
    by_cases hk : p.1 = k
    · simp [hk] at h
    · simp only [hk, if_false] at h ⊢
      exact ih h

theorem alookup_mem {β : Type} {k : Str} {xs : List (Str × β)} {v : β}
    (h : alookup k xs = some v) : (k, v) ∈ xs := by
  induction xs with
  | nil => simp [alookup] at h
  | cons p rest ih =>
    rw [alookup] at h
    by_cases hk : p.1 = k
    · subst hk
      simp only [if_true] at h
      injection h with hv
      subst hv
      simp
    · simp only [hk, if_false] at h
      exact List.mem_cons_of_mem _ (ih h)

theorem alookup_none_iff {β : Type} {k : Str} {xs : List (Str × β)} :
    alookup k xs = none ↔ k ∉ xs.map Prod.fst := by
  induction xs with
  | nil => simp [alookup]
  | cons p rest ih =>
    rw [alookup]
    by_cases hk : p.1 = k
    · simp only [hk, if_true]
      constructor
      · intro h
        exact absurd h (Option.some_ne_none _)
      · intro h
        exact absurd (hk ▸ List.mem_map_of_mem Prod.fst (List.mem_cons_self p rest)) h
    · simp only [hk, if_false, List.map_cons, List.mem_cons]
      rw [ih]
      constructor
      · intro h hmem
        rcases hmem with h1 | h2
        · exact hk h1.symm
        · exact h h2
      · intro h hmem
        exact h (Or.inr hmem)

theorem alookup_of_mem_nodupKeys {β : Type} {k : Str} {v : β} {xs : List (Str × β)}
    (hnd : (xs.map Prod.fst).Nodup) (hmem : (k, v) ∈ xs) : alookup k xs = some v := by
  induction xs with
  | nil => simp at hmem
  | cons p rest ih =>
    rw [List.map_cons, List.nodup_cons] at hnd
    rcases List.mem_cons.mp hmem with h1 | h2
    · rw [← h1, alookup]
      simp
    · rw [alookup]
      by_cases hk : p.1 = k
      · exfalso
        apply hnd.1
        rw [hk]
        exact List.mem_map_of_mem Prod.fst h2
      · simp only [hk, if_false]
        exact ih hnd.2 h2

theorem alookup_addNeed_self (k : Str) (s : Nat) (needs : List (Str × List Nat)) :
    alookup k (addNeed k s needs) = some ((alookup k needs).getD [] ++ [s]) := by
  induction needs with
  | nil => simp [addNeed, alookup]
  | cons p rest ih =>
    rw [addNeed]
    by_cases hk : p.1 = k
    · cases p
      simp_all [alookup]
    · cases p
      simp_all [addNeed, alookup]

theorem alookup_addNeed_ne (k k' : Str) (s : Nat) (needs : List (Str × List Nat))
    (h : k' ≠ k) : alookup k' (addNeed k s needs) = alookup k' needs := by
  induction needs with
  | nil =>
    have hne : k ≠ k' := fun hh => h hh.symm
    simp [addNeed, alookup, hne]
  | cons p rest ih =>
    cases p with
    | mk a b =>
      have hkk' : ¬ k = k' := fun hh => h hh.symm
      by_cases hk : a = k
      · simp [addNeed, alookup, hk, hkk']
      · by_cases hk' : a = k'
        · simp [addNeed, alookup, hk, hk', h]
        · simp [addNeed, alookup, hk, hk', ih]

/-- All byte offsets recorded in a fixup table. -/
def needFlat : List (Str × List Nat) → List Nat
  | [] => []
  | p :: rest => p.2 ++ needFlat rest

theorem mem_needFlat_iff {x : Nat} {needs : List (Str × List Nat)} :
    x ∈ needFlat needs ↔ ∃ p ∈ needs, x ∈ p.2 := by
  induction needs with
  | nil => simp [needFlat]
  | cons p rest ih => simp [needFlat, ih]

theorem needFlat_addNeed (k : Str) (s : Nat) (needs : List (Str × List Nat)) :
    (needFlat (addNeed k s needs)).Perm (s :: needFlat needs) := by
  induction needs with
  | nil => simp [addNeed, needFlat]
  | cons p rest ih =>
    rw [addNeed]
    by_cases hk : p.1 = k
    · simp only [hk, if_true, needFlat]
      have : p.2 ++ [s] ++ needFlat rest = p.2 ++ (s :: needFlat rest) := by
        simp
      rw [this]
      exact List.perm_middle
    · simp only [hk, if_false, needFlat]
      exact (List.Perm.append_left p.2 ih).trans List.perm_middle

theorem map_fst_addNeed (k : Str) (s : Nat) (needs : List (Str × List Nat)) :
    (addNeed k s needs).map Prod.fst =
      if (alookup k needs).isSome then needs.map Prod.fst
      else needs.map Prod.fst ++ [k] := by
  induction needs with
  | nil => simp [addNeed, alookup]
  | cons p rest ih =>
    rw [addNeed, alookup]
    by_cases hk : p.1 = k
    · simp [hk]
    · simp only [hk, if_false, List.map_cons, ih]
      by_cases hs : (alookup k rest).isSome
      · simp [hs]
      · simp [hs]

/-! ## Pass-1 invariants for program-label resolution -/

theorem nodup_append_singleton {α : Type} {xs : List α} {a : α}
    (h : xs.Nodup) (ha : a ∉ xs) : (xs ++ [a]).Nodup := by
  have hp : (xs ++ [a]).Perm (a :: xs) := by
    have h2 := @List.perm_middle _ a xs []
    rw [List.append_nil] at h2
    exact h2
  exact hp.nodup_iff.mpr (List.nodup_cons.mpr ⟨ha, h⟩)

theorem mem_addNeed {q : Str × List Nat} {k : Str} {s : Nat}
    {needs : List (Str × List Nat)} (h : q ∈ addNeed k s needs) :
    q ∈ needs ∨ (∃ v, q = (k, v ++ [s]) ∧ (k, v) ∈ needs) ∨ q = (k, [s]) := by
  induction needs with
  | nil =>
    simp [addNeed] at h
    right; right; exact h
  | cons p rest ih =>
    cases p with
    | mk a b =>
      by_cases hk : a = k
      · subst hk
        simp only [addNeed, if_true] at h
        rcases List.mem_cons.mp h with h1 | h2
        · right; left
          exact ⟨b, h1, List.mem_cons_self _ _⟩
        · left; exact List.mem_cons_of_mem _ h2
      · simp only [addNeed, hk, if_false] at h
        rcases List.mem_cons.mp h with h1 | h2
        · left; rw [h1]; exact List.mem_cons_self _ _
        · rcases ih h2 with h3 | ⟨v, h4, h5⟩ | h6
          · left; exact List.mem_cons_of_mem _ h3
          · right; left; exact ⟨v, h4, List.mem_cons_of_mem _ h5⟩
          · right; right; exact h6

theorem opBytes_len_pos (op : OpCode Nat) : 1 ≤ (opBytes op).length := by
  cases op <;> simp [opBytes]

theorem placeholder_arg_lt {op : OpCode Str} {b : Bool} {arg : Nat} {n : Str}
    (h : (placeholder_labels op).2 = some (b, arg, n)) :
    arg < (opBytes (placeholder_labels op).1).length := by
  cases op <;> simp_all [placeholder_labels, opBytes] <;> omega

theorem placeholder_of_jmp {op : OpCode Str} {L : Str}
    (h : op = .Jmp L ∨ op = .JmpCondition L) :
    (placeholder_labels op).2 = some (true, 1, L) := by
  rcases h with h | h <;> rw [h] <;> rfl

/-- The pass-1 invariant that backs the program-label resolution claim:
the label table tracks exactly the labels defined so far; the ghost `refs`
list records all program-label operand slots, all below the cursor and
pairwise distinct; `need_labels` offsets are refs; and every recorded
reference is either queued in `need_labels` or already patched in the
instruction image with its label's address. -/
structure P1Inv (processed : List AssemblyLine) (st : Pass1State) : Prop where
  labels_mem : ∀ L, (alookup L st.label_locations).isSome ↔ AssemblyLine.Label L ∈ processed
  refs_lt : ∀ p ∈ st.refs, p.2 < st.cur_offset
  refs_nodup : (st.refs.map Prod.snd).Nodup
  need_lt : ∀ s ∈ needFlat st.need_labels, s < st.cur_offset
  need_nodup : (needFlat st.need_labels).Nodup
  need_keys : (st.need_labels.map Prod.fst).Nodup
  need_refs : ∀ q ∈ st.need_labels, ∀ s ∈ q.2, (q.1, s) ∈ st.refs
  refs_status : ∀ n s, (n, s) ∈ st.refs →
    (∃ offs, alookup n st.need_labels = some offs ∧ s ∈ offs) ∨
    (∃ ln a, alookup n st.label_locations = some (ln, a) ∧ st.bios s = a)
  refs_complete : ∀ L,
    (AssemblyLine.Op (OpCode.Jmp L) ∈ processed ∨
      AssemblyLine.Op (OpCode.JmpCondition L) ∈ processed) →
    ∃ s, (L, s) ∈ st.refs

theorem p1inv_init (bios_memory : Mem) : P1Inv [] (pass1Init bios_memory) := by
  refine ⟨?_, ?_, ?_, ?_, ?_, ?_, ?_, ?_, ?_⟩ <;>
    simp [pass1Init, alookup, needFlat]

/-- Lines that neither define a program label nor touch the program-label
fixup state preserve the invariant, provided the cursor only moves forward
and bytes below the old cursor are untouched. -/
theorem p1inv_step_plain {processed : List AssemblyLine} {st : Pass1State}
    (op : OpCode Str) (hInv : P1Inv processed st) (st' : Pass1State)
    (hlab : st'.label_locations = st.label_locations)
    (hneed : st'.need_labels = st.need_labels)
    (hrefs : st'.refs = st.refs)
    (hcur : st.cur_offset ≤ st'.cur_offset)
    (hbios : ∀ s, s < st.cur_offset → st'.bios s = st.bios s)
    (hnotjmp : ∀ L, op ≠ OpCode.Jmp L ∧ op ≠ OpCode.JmpCondition L) :
    P1Inv (processed ++ [.Op op]) st' := by
  refine ⟨?_, ?_, ?_, ?_, ?_, ?_, ?_, ?_, ?_⟩
  · intro L
    rw [hlab, hInv.labels_mem L]
    simp
  · intro p hp
    rw [hrefs] at hp
    exact lt_of_lt_of_le (hInv.refs_lt p hp) hcur
  · rw [hrefs]; exact hInv.refs_nodup
  · intro s hs
    rw [hneed] at hs
    exact lt_of_lt_of_le (hInv.need_lt s hs) hcur
  · rw [hneed]; exact hInv.need_nodup
  · rw [hneed]; exact hInv.need_keys
  · intro q hq s hs
    rw [hneed] at hq
    rw [hrefs]
    exact hInv.need_refs q hq s hs
  · intro n s hs
    rw [hrefs] at hs
    rcases hInv.refs_status n s hs with ⟨offs, ho, hso⟩ | ⟨ln, a, hla, hb⟩
    · left
      rw [hneed]
      exact ⟨offs, ho, hso⟩
    · right
      refine ⟨ln, a, by rw [hlab]; exact hla, ?_⟩
      rw [hbios s (hInv.refs_lt (n, s) hs)]
      exact hb
  · intro L hL
    rw [hrefs]
    apply hInv.refs_complete L
    rcases hL with hL | hL
    · rcases List.mem_append.mp hL with h1 | h1
      · exact Or.inl h1
      · exfalso
        have : op = OpCode.Jmp L := by
          cases List.mem_singleton.mp h1
          rfl
        exact (hnotjmp L).1 this
    · rcases List.mem_append.mp hL with h1 | h1
      · exact Or.inr h1
      · exfalso
        have : op = OpCode.JmpCondition L := by
          cases List.mem_singleton.mp h1
          rfl
        exact (hnotjmp L).2 this

theorem pass1Op_inv {processed : List AssemblyLine} {st st' : Pass1State} {op : OpCode Str}
    (hInv : P1Inv processed st) (h : pass1Op st op = .ok st') :
    P1Inv (processed ++ [.Op op]) st' := by
  rw [pass1Op] at h
  split at h
  case isFalse => exact absurd h (by simp)
  case isTrue hg1 =>
  dsimp only at h
  split at h
  case isFalse => exact absurd h (by simp)
  case isTrue hg2 =>
  injection h with h
  subst h
  have hlen1 : 1 ≤ (opBytes (placeholder_labels op).1).length := opBytes_len_pos _
  have hcle : st.cur_offset ≤ st.cur_offset + (opBytes (placeholder_labels op).1).length :=
    Nat.le_add_right _ _
  rcases hpl : (placeholder_labels op).2 with _ | ⟨b, arg, n⟩
  · -- no label operand
    dsimp only [applyLabelInfo]
    refine p1inv_step_plain op hInv _ rfl rfl rfl hcle ?_ ?_
    · intro s hs
      dsimp only
      exact writeBytes_lt _ _ _ _ hs
    · intro L
      constructor <;> intro he
      · have hj := placeholder_of_jmp (Or.inl he)
        rw [hpl] at hj
        cases hj
      · have hj := placeholder_of_jmp (Or.inr he)
        rw [hpl] at hj
        cases hj
  · have harg : arg < (opBytes (placeholder_labels op).1).length := placeholder_arg_lt hpl
    have hslot_lt : st.cur_offset + arg < st.cur_offset + (opBytes (placeholder_labels op).1).length :=
      Nat.add_lt_add_left harg _
    have hslot_ge : st.cur_offset ≤ st.cur_offset + arg := Nat.le_add_right _ _
    cases b with
    | true =>
      have hname : ∀ L, (op = OpCode.Jmp L ∨ op = OpCode.JmpCondition L) → n = L := by
        intro L he
        have hj := placeholder_of_jmp he
        rw [hpl] at hj
        simp at hj
        exact hj.2
      have hrefs_lt' : ∀ p ∈ st.refs ++ [(n, st.cur_offset + arg)],
          p.2 < st.cur_offset + (opBytes (placeholder_labels op).1).length := by
        intro p hp
        rcases List.mem_append.mp hp with hp | hp
        · exact lt_of_lt_of_le (hInv.refs_lt p hp) hcle
        · cases List.mem_singleton.mp hp
          exact hslot_lt
      have hrefs_nodup' : ((st.refs ++ [(n, st.cur_offset + arg)]).map Prod.snd).Nodup := by
        rw [List.map_append]
        refine nodup_append_singleton hInv.refs_nodup ?_
        intro hmem
        rcases List.mem_map.mp hmem with ⟨p, hp, hp2⟩
        have := hInv.refs_lt p hp
        omega
      have hrefs_complete' : ∀ L,
          (AssemblyLine.Op (OpCode.Jmp L) ∈ processed ++ [AssemblyLine.Op op] ∨
            AssemblyLine.Op (OpCode.JmpCondition L) ∈ processed ++ [AssemblyLine.Op op]) →
          ∃ s, (L, s) ∈ st.refs ++ [(n, st.cur_offset + arg)] := by
        intro L hL
        have hcases : (AssemblyLine.Op (OpCode.Jmp L) ∈ processed ∨
            AssemblyLine.Op (OpCode.JmpCondition L) ∈ processed) ∨ n = L := by
          rcases hL with hL | hL <;> rcases List.mem_append.mp hL with h1 | h1
          · exact Or.inl (Or.inl h1)
          · refine Or.inr (hname L (Or.inl ?_))
            cases List.mem_singleton.mp h1
            rfl
          · exact Or.inl (Or.inr h1)
          · refine Or.inr (hname L (Or.inr ?_))
            cases List.mem_singleton.mp h1
            rfl
        rcases hcases with hold | hn
        · obtain ⟨s, hs⟩ := hInv.refs_complete L hold
          exact ⟨s, List.mem_append_left _ hs⟩
        · subst hn
          exact ⟨st.cur_offset + arg, List.mem_append_right _ (List.mem_singleton.mpr rfl)⟩
      rcases hl : alookup n st.label_locations with _ | ⟨ln0, a0⟩
      · -- forward reference: queue a fixup
        simp only [applyLabelInfo, hl]
        refine ⟨?_, ?_, ?_, ?_, ?_, ?_, ?_, ?_, ?_⟩
        · intro L
          rw [hInv.labels_mem L]
          simp
        · exact hrefs_lt'
        · exact hrefs_nodup'
        · intro s hs
          dsimp only at hs
          have := (needFlat_addNeed n (st.cur_offset + arg) st.need_labels).mem_iff.mp hs
          rcases List.mem_cons.mp this with h1 | h1
          · subst h1; exact hslot_lt
          · exact lt_of_lt_of_le (hInv.need_lt s h1) hcle
        · dsimp only
          refine (needFlat_addNeed n (st.cur_offset + arg) st.need_labels).nodup_iff.mpr ?_
          refine List.nodup_cons.mpr ⟨?_, hInv.need_nodup⟩
          intro hmem
          have := hInv.need_lt _ hmem
          omega
        · dsimp only
          rw [map_fst_addNeed]
          rcases hna : alookup n st.need_labels with _ | v
          · simp only [hna, Option.isSome_none, Bool.false_eq_true, if_false]
            exact nodup_append_singleton hInv.need_keys (alookup_none_iff.mp hna)
          · simp only [hna, Option.isSome_some, if_true]
            exact hInv.need_keys
        · intro q hq s hs
          dsimp only at hq ⊢
          rcases mem_addNeed hq with h1 | ⟨v, h2, h3⟩ | h4
          · exact List.mem_append_left _ (hInv.need_refs q h1 s hs)
          · rw [h2] at hs ⊢
            dsimp only at hs ⊢
            rcases List.mem_append.mp hs with h5 | h5
            · exact List.mem_append_left _ (hInv.need_refs (n, v) h3 s h5)
            · cases List.mem_singleton.mp h5
              exact List.mem_append_right _ (List.mem_singleton.mpr rfl)
          · rw [h4] at hs ⊢
            dsimp only at hs ⊢
            cases List.mem_singleton.mp hs
            exact List.mem_append_right _ (List.mem_singleton.mpr rfl)
        · intro m s hs
          dsimp only at hs ⊢
          rcases List.mem_append.mp hs with hold | hnew
          · rcases hInv.refs_status m s hold with ⟨offs, ho, hso⟩ | ⟨ln1, a1, hla, hb⟩
            · left
              by_cases hmn : m = n
              · subst hmn
                refine ⟨offs ++ [st.cur_offset + arg], ?_, List.mem_append_left _ hso⟩
                rw [alookup_addNeed_self, ho]
                rfl
              · exact ⟨offs, by rw [alookup_addNeed_ne _ _ _ _ hmn]; exact ho, hso⟩
            · right
              refine ⟨ln1, a1, hla, ?_⟩
              rw [writeBytes_lt _ _ _ _ (hInv.refs_lt (m, s) hold)]
              exact hb
          · cases List.mem_singleton.mp hnew
            left
            refine ⟨(alookup n st.need_labels).getD [] ++ [st.cur_offset + arg],
              alookup_addNeed_self _ _ _, List.mem_append_right _ (List.mem_singleton.mpr rfl)⟩
        · exact hrefs_complete'
      · -- backward reference: patch eagerly
        simp only [applyLabelInfo, hl]
        refine ⟨?_, ?_, ?_, ?_, ?_, ?_, ?_, ?_, ?_⟩
        · intro L
          rw [hInv.labels_mem L]
          simp
        · exact hrefs_lt'
        · exact hrefs_nodup'
        · intro s hs
          exact lt_of_lt_of_le (hInv.need_lt s hs) hcle
        · exact hInv.need_nodup
        · exact hInv.need_keys
        · intro q hq s hs
          exact List.mem_append_left _ (hInv.need_refs q hq s hs)
        · intro m s hs
          dsimp only at hs ⊢
          rcases List.mem_append.mp hs with hold | hnew
          · rcases hInv.refs_status m s hold with ⟨offs, ho, hso⟩ | ⟨ln1, a1, hla, hb⟩
            · left
              exact ⟨offs, ho, hso⟩
            · right
              refine ⟨ln1, a1, hla, ?_⟩
              have hlt := hInv.refs_lt (m, s) hold
              rw [memWrite_ne _ _ _ _ (Nat.ne_of_lt (lt_of_lt_of_le hlt hslot_ge))]
              rw [writeBytes_lt _ _ _ _ hlt]
              exact hb
          · cases List.mem_singleton.mp hnew
            right
            exact ⟨ln0, a0, hl, memWrite_self _ _ _⟩
        · exact hrefs_complete'
    | false =>
      have hnotjmp : ∀ L, op ≠ OpCode.Jmp L ∧ op ≠ OpCode.JmpCondition L := by
        intro L
        constructor <;> intro he
        · have hj := placeholder_of_jmp (Or.inl he)
          rw [hpl] at hj
          injection hj with hj
          cases hj
        · have hj := placeholder_of_jmp (Or.inr he)
          rw [hpl] at hj
          injection hj with hj
          cases hj
      rcases hl : alookup n st.memory_locations with _ | ⟨ln0, a0, v0⟩
      · simp only [applyLabelInfo, hl]
        refine p1inv_step_plain op hInv _ rfl rfl rfl hcle ?_ hnotjmp
        intro s hs
        dsimp only
        exact writeBytes_lt _ _ _ _ hs
      · simp only [applyLabelInfo, hl]
        refine p1inv_step_plain op hInv _ rfl rfl rfl hcle ?_ hnotjmp
        intro s hs
        dsimp only
        rw [memWrite_ne _ _ _ _ (Nat.ne_of_lt (lt_of_lt_of_le hs hslot_ge))]
        exact writeBytes_lt _ _ _ _ hs

/-- Lines that change none of the program-label state (empty lines and
`let` declarations) preserve the invariant. -/
theorem p1inv_congr_line {processed : List AssemblyLine} {st st' : Pass1State}
    (line : AssemblyLine) (hInv : P1Inv processed st)
    (hlab : st'.label_locations = st.label_locations)
    (hneed : st'.need_labels = st.need_labels)
    (hrefs : st'.refs = st.refs)
    (hcur : st'.cur_offset = st.cur_offset)
    (hbios : st'.bios = st.bios)
    (hnotlabel : ∀ L, line ≠ .Label L)
    (hnotop : ∀ op, line ≠ .Op op) :
    P1Inv (processed ++ [line]) st' := by
  refine ⟨?_, ?_, ?_, ?_, ?_, ?_, ?_, ?_, ?_⟩
  · intro L
    rw [hlab, hInv.labels_mem L]
    constructor
    · intro hmem
      exact List.mem_append_left _ hmem
    · intro hmem
      rcases List.mem_append.mp hmem with h1 | h1
      · exact h1
      · exact absurd (List.mem_singleton.mp h1).symm (hnotlabel L)
  · intro p hp
    rw [hrefs] at hp
    rw [hcur]
    exact hInv.refs_lt p hp
  · rw [hrefs]; exact hInv.refs_nodup
  · intro s hs
    rw [hneed] at hs
    rw [hcur]
    exact hInv.need_lt s hs
  · rw [hneed]; exact hInv.need_nodup
  · rw [hneed]; exact hInv.need_keys
  · intro q hq s hs
    rw [hneed] at hq
    rw [hrefs]
    exact hInv.need_refs q hq s hs
  · intro n s hs
    rw [hrefs] at hs
    rw [hneed, hlab, hbios]
    exact hInv.refs_status n s hs
  · intro L hL
    rw [hrefs]
    apply hInv.refs_complete L
    rcases hL with hL | hL
    · rcases List.mem_append.mp hL with h1 | h1
      · exact Or.inl h1
      · exact absurd (List.mem_singleton.mp h1).symm (hnotop _)
    · rcases List.mem_append.mp hL with h1 | h1
      · exact Or.inr h1
      · exact absurd (List.mem_singleton.mp h1).symm (hnotop _)

theorem pass1Line_inv {processed : List AssemblyLine} {st st' : Pass1State}
    {line : AssemblyLine} {ln : Nat}
    (hInv : P1Inv processed st) (h : pass1Line st ln line = .ok st') :
    P1Inv (processed ++ [line]) st' := by
  cases line with
  | EmptyLine =>
    injection h with h
    subst h
    exact p1inv_congr_line _ hInv rfl rfl rfl rfl rfl
      (fun L hL => by cases hL) (fun op hop => by cases hop)
  | Label name =>
    rw [pass1Line] at h
    rcases hl : alookup name st.label_locations with _ | ⟨dl, _⟩
    · rw [hl] at h
      injection h with h
      subst h
      refine ⟨?_, ?_, ?_, ?_, ?_, ?_, ?_, ?_, ?_⟩
      · intro L
        dsimp only
        rcases halo : alookup L st.label_locations with _ | v
        · rw [alookup_append_none _ halo]
          have hmem : AssemblyLine.Label L ∉ processed := by
            rw [← hInv.labels_mem L, halo]
            simp
          by_cases hname : name = L
          · subst hname
            simp [alookup]
          · simp only [alookup, hname, if_false]
            simp only [Option.isSome_none, Bool.false_eq_true, false_iff]
            intro hcon
            rcases List.mem_append.mp hcon with h1 | h1
            · exact hmem h1
            · have := List.mem_singleton.mp h1
              injection this with hLn
              exact hname hLn.symm
        · rw [alookup_append_some _ halo]
          simp only [Option.isSome_some, true_iff]
          refine List.mem_append_left _ ?_
          rw [← hInv.labels_mem L, halo]
          simp
      · intro p hp
        exact hInv.refs_lt p hp
      · exact hInv.refs_nodup
      · intro s hs
        exact hInv.need_lt s hs
      · exact hInv.need_nodup
      · exact hInv.need_keys
      · intro q hq s hs
        exact hInv.need_refs q hq s hs
      · intro n s hs
        dsimp only at hs ⊢
        rcases hInv.refs_status n s hs with ⟨offs, ho, hso⟩ | ⟨ln1, a1, hla, hb⟩
        · left
          exact ⟨offs, ho, hso⟩
        · right
          exact ⟨ln1, a1, alookup_append_some _ hla, hb⟩
      · intro L hL
        apply hInv.refs_complete L
        rcases hL with hL | hL
        · rcases List.mem_append.mp hL with h1 | h1
          · exact Or.inl h1
          · cases List.mem_singleton.mp h1
        · rcases List.mem_append.mp hL with h1 | h1
          · exact Or.inr h1
          · cases List.mem_singleton.mp h1
    · rw [hl] at h
      cases h
  | MemoryDeclaration label value =>
    rw [pass1Line] at h
    rcases hl : alookup label st.memory_locations with _ | ⟨dl, _, _⟩
    · rw [hl] at h
      injection h with h
      subst h
      exact p1inv_congr_line _ hInv rfl rfl rfl rfl rfl
        (fun L hL => by cases hL) (fun op hop => by cases hop)
    · rw [hl] at h
      cases h
  | Op opcode => exact pass1Op_inv hInv h

theorem pass1Go_inv : ∀ (code : List AssemblyLine) {ln : Nat} {st st' : Pass1State}
    (processed : List AssemblyLine),
    P1Inv processed st → pass1Go code ln st = .ok st' → P1Inv (processed ++ code) st' := by
  intro code
  induction code with
  | nil =>
    intro ln st st' processed hInv h
    injection h with h
    subst h
    rw [List.append_nil]
    exact hInv
  | cons l rest ih =>
    intro ln st st' processed hInv h
    rw [pass1Go] at h
    cases hstep : pass1Line st ln l with
    | error e =>
      rw [hstep] at h
      cases h
    | ok st1 =>
      rw [hstep] at h
      have h2 := ih (processed ++ [l]) (pass1Line_inv hInv hstep) h
      rw [List.append_assoc] at h2
      exact h2

theorem pass1_inv {code : List AssemblyLine} {bios_memory : Mem} {st : Pass1State}
    (h : pass1 code bios_memory = .ok st) : P1Inv code st := by
  have h2 := pass1Go_inv code [] (p1inv_init bios_memory) h
  rw [List.nil_append] at h2
  exact h2

/-! ## Pass-2 lemmas -/

theorem patchList_ok {labels : List (Str × Nat × Nat)} {n : Str} :
    ∀ {offs : List Nat} {mem mem' : Mem}, patchList labels n offs mem = .ok mem' →
    (offs = [] ∧ mem' = mem) ∨
    (∃ ln a, alookup n labels = some (ln, a) ∧
      (∀ s, s ∈ offs → mem' s = a) ∧ (∀ s, s ∉ offs → mem' s = mem s)) := by
  intro offs
  induction offs with
  | nil =>
    intro mem mem' h
    injection h with h
    exact Or.inl ⟨rfl, h.symm⟩
  | cons off rest ih =>
    intro mem mem' h
    rw [patchList] at h
    rcases halo : alookup n labels with _ | ⟨ln, a⟩
    · rw [halo] at h
      cases h
    · rw [halo] at h
      rcases ih h with ⟨hnil, hmem⟩ | ⟨ln1, a1, hla1, hin, hout⟩
      · subst hnil
        subst hmem
        refine Or.inr ⟨ln, a, rfl, ?_, ?_⟩

        · intro s hs
          cases List.mem_singleton.mp hs
          exact memWrite_self _ _ _
        · intro s hs
          exact memWrite_ne _ _ _ _ (fun he => hs (by rw [he]; exact List.mem_singleton.mpr rfl))
      · rw [halo] at hla1
        injection hla1 with hla1
        injection hla1 with h1 h2
        subst h1
        subst h2
        refine Or.inr ⟨ln, a, rfl, ?_, ?_⟩
        · intro s hs
          rcases List.mem_cons.mp hs with h1 | h1
          · subst h1
            by_cases hsr : s ∈ rest
            · exact hin s hsr
            · rw [hout s hsr]
              exact memWrite_self _ _ _
          · exact hin s h1
        · intro s hs
          have hs1 : s ≠ off := fun he => hs (by rw [he]; exact List.mem_cons_self _ _)
          have hs2 : s ∉ rest := fun he => hs (List.mem_cons_of_mem _ he)
          rw [hout s hs2]
          exact memWrite_ne _ _ _ _ hs1

theorem patchNeeds_ok {labels : List (Str × Nat × Nat)} :
    ∀ {needs : List (Str × List Nat)} {mem mem' : Mem},
    (needFlat needs).Nodup → patchNeeds labels needs mem = .ok mem' →
    (∀ q ∈ needs, ∀ s ∈ q.2, ∃ ln a, alookup q.1 labels = some (ln, a) ∧ mem' s = a) ∧
    (∀ s, s ∉ needFlat needs → mem' s = mem s) := by
  intro needs
  induction needs with
  | nil =>
    intro mem mem' _ h
    injection h with h
    subst h
    exact ⟨by simp, fun s _ => rfl⟩
  | cons q rest ih =>
    intro mem mem' hnd h
    rw [patchNeeds] at h
    rcases hpl : patchList labels q.1 q.2 mem with ⟨e, m⟩ | mem1
    · rw [hpl] at h
      cases h
    · rw [hpl] at h
      have hnd' : (needFlat rest).Nodup := by
        rw [show needFlat (q :: rest) = q.2 ++ needFlat rest from rfl] at hnd
        exact (List.nodup_append.mp hnd).2.1
      have hdisj : ∀ s ∈ q.2, s ∉ needFlat rest := by
        rw [show needFlat (q :: rest) = q.2 ++ needFlat rest from rfl] at hnd
        intro s hs
        exact (List.nodup_append.mp hnd).2.2 hs
      obtain ⟨ih1, ih2⟩ := ih hnd' h
      constructor
      · intro q' hq' s hs
        rcases List.mem_cons.mp hq' with h1 | h1
        · subst h1
          rcases patchList_ok hpl with ⟨hnil, _⟩ | ⟨ln, a, hla, hin, _⟩
          · rw [hnil] at hs
            cases hs
          · refine ⟨ln, a, hla, ?_⟩
            rw [ih2 s (hdisj s hs)]
            exact hin s hs
        · exact ih1 q' h1 s hs
      · intro s hs
        have hs1 : s ∉ q.2 := fun he => hs (by
          rw [show needFlat (q :: rest) = q.2 ++ needFlat rest from rfl]
          exact List.mem_append_left _ he)
        have hs2 : s ∉ needFlat rest := fun he => hs (by
          rw [show needFlat (q :: rest) = q.2 ++ needFlat rest from rfl]
          exact List.mem_append_right _ he)
        rw [ih2 s hs2]
        rcases patchList_ok hpl with ⟨_, hmem⟩ | ⟨_, _, _, _, hout⟩
        · rw [hmem]
        · exact hout s hs1

theorem patchNeeds_ok_lookup {labels : List (Str × Nat × Nat)} :
    ∀ {needs : List (Str × List Nat)} {mem mem' : Mem},
    patchNeeds labels needs mem = .ok mem' →
    ∀ n offs, alookup n needs = some offs → offs ≠ [] →
    ∃ ln a, alookup n labels = some (ln, a) := by
  intro needs
  induction needs with
  | nil =>
    intro mem mem' _ n offs ho
    simp [alookup] at ho
  | cons q rest ih =>
    intro mem mem' h n offs ho hne
    rw [patchNeeds] at h
    rcases hpl : patchList labels q.1 q.2 mem with ⟨e, m⟩ | mem1
    · rw [hpl] at h
      cases h
    · rw [hpl] at h
      rw [alookup] at ho
      by_cases hq : q.1 = n
      · simp only [hq, if_true] at ho
        injection ho with ho
        subst ho
        rcases patchList_ok hpl with ⟨hnil, _⟩ | ⟨ln, a, hla, _, _⟩
        · exact absurd hnil hne
        · rw [hq] at hla
          exact ⟨ln, a, hla⟩
      · simp only [hq, if_false] at ho
        exact ih h n offs ho hne

theorem patchList_err {labels : List (Str × Nat × Nat)} {n : Str} :
    ∀ {offs : List Nat} {mem m : Mem} {e : AssemblingError},
    patchList labels n offs mem = .error (e, m) → e = .InvalidLabel := by
  intro offs
  induction offs with
  | nil =>
    intro mem m e h
    cases h
  | cons off rest ih =>
    intro mem m e h
    rw [patchList] at h
    rcases halo : alookup n labels with _ | ⟨ln, a⟩
    · rw [halo] at h
      injection h with h
      exact congrArg Prod.fst h.symm
    · rw [halo] at h
      exact ih h

theorem patchNeeds_err {labels : List (Str × Nat × Nat)} :
    ∀ {needs : List (Str × List Nat)} {mem m : Mem} {e : AssemblingError},
    patchNeeds labels needs mem = .error (e, m) → e = .InvalidLabel := by
  intro needs
  induction needs with
  | nil =>
    intro mem m e h
    cases h
  | cons q rest ih =>
    intro mem m e h
    rw [patchNeeds] at h
    rcases hpl : patchList labels q.1 q.2 mem with ⟨e1, m1⟩ | mem1
    · rw [hpl] at h
      injection h with hpair
      injection hpair with ha hb
      rw [← ha]
      exact patchList_err hpl
    · rw [hpl] at h
      exact ih h

theorem patchMemList_err {memory_locations : List (Str × Nat × Nat × Nat)} {n : Str} :
    ∀ {offs : List Nat} {mem m : Mem} {e : AssemblingError},
    patchMemList memory_locations n offs mem = .error (e, m) → e = .InvalidMemoryLabel := by
  intro offs
  induction offs with
  | nil =>
    intro mem m e h
    cases h
  | cons off rest ih =>
    intro mem m e h
    rw [patchMemList] at h
    rcases halo : alookup n memory_locations with _ | ⟨ln, a, v⟩
    · rw [halo] at h
      injection h with h
      exact congrArg Prod.fst h.symm
    · rw [halo] at h
      exact ih h

theorem patchMemNeeds_err {memory_locations : List (Str × Nat × Nat × Nat)} :
    ∀ {needs : List (Str × List Nat)} {mem m : Mem} {e : AssemblingError},
    patchMemNeeds memory_locations needs mem = .error (e, m) → e = .InvalidMemoryLabel := by
  intro needs
  induction needs with
  | nil =>
    intro mem m e h
    cases h
  | cons q rest ih =>
    intro mem m e h
    rw [patchMemNeeds] at h
    rcases hpl : patchMemList memory_locations q.1 q.2 mem with ⟨e1, m1⟩ | mem1
    · rw [hpl] at h
      injection h with hpair
      injection hpair with ha hb
      rw [← ha]
      exact patchMemList_err hpl
    · rw [hpl] at h
      exact ih h

/-- Decomposition of a successful `assemble` run. -/
theorem assemble_ok_parts {code : List AssemblyLine} {bios_memory data_memory bios' data' : Mem}
    (h : assemble code bios_memory data_memory = .ok bios' data') :
    ∃ st, pass1 code bios_memory = .ok st ∧
      patchNeeds st.label_locations st.need_labels st.bios = .ok bios' := by
  rw [assemble] at h
  rcases hp : pass1 code bios_memory with ⟨e, b⟩ | st
  · rw [hp] at h
    cases h
  · rw [hp] at h
    dsimp only at h
    rcases hpn : patchNeeds st.label_locations st.need_labels st.bios with ⟨e, b⟩ | bios2
    · rw [hpn] at h
      cases h
    · rw [hpn] at h
      dsimp only at h
      rcases hpm : patchMemNeeds st.memory_locations st.need_memory_labels data_memory with ⟨e, d⟩ | d2
      · rw [hpm] at h
        cases h
      · rw [hpm] at h
        dsimp only at h
        injection h with h1 h2
        subst h1
        exact ⟨st, rfl, hpn⟩

/-- C2: for every program and every program label referenced by a `jmp` or
`jmpc` instruction: if the label is defined anywhere in the program (before
or after the reference), a successful `assemble` leaves every such
instruction's operand byte in the instruction image equal to the label's
recorded instruction-memory offset once pass 2 completes; if the label is
defined nowhere, `assemble` never succeeds, and as soon as pass 1 completes
it fails with the unresolved-label (`InvalidLabel`) fatal error. -/
theorem assemble_jmp_label_resolution (code : List AssemblyLine)
    (bios_memory data_memory : Mem) (L : Str)
    (href : AssemblyLine.Op (OpCode.Jmp L) ∈ code ∨
      AssemblyLine.Op (OpCode.JmpCondition L) ∈ code) :
    ((AssemblyLine.Label L ∈ code) →
      ∀ bios' data', assemble code bios_memory data_memory = .ok bios' data' →
        ∃ st ln a, pass1 code bios_memory = .ok st ∧
          alookup L st.label_locations = some (ln, a) ∧
          (∃ s, (L, s) ∈ st.refs) ∧ (∀ s, (L, s) ∈ st.refs → bios' s = a))
    ∧ ((AssemblyLine.Label L ∉ code) →
        (∀ bios' data', assemble code bios_memory data_memory ≠ .ok bios' data') ∧
        (∀ st, pass1 code bios_memory = .ok st →
          ∃ b' d', assemble code bios_memory data_memory =
            .err .InvalidLabel b' d')) := by
  constructor
  · -- the label is defined somewhere: every reference resolves to its offset
    intro hdef bios' data' hok
    obtain ⟨st, hp1, hpn⟩ := assemble_ok_parts hok
    have hInv := pass1_inv hp1
    have hsome : (alookup L st.label_locations).isSome := (hInv.labels_mem L).mpr hdef
    rcases hla : alookup L st.label_locations with _ | ⟨ln, a⟩
    · rw [hla] at hsome
      cases hsome
    · refine ⟨st, ln, a, hp1, hla, hInv.refs_complete L href, ?_⟩
      intro s hs
      obtain ⟨hp_all, hp_untouched⟩ := patchNeeds_ok hInv.need_nodup hpn
      rcases hInv.refs_status L s hs with ⟨offs, ho, hso⟩ | ⟨ln1, a1, hla1, hb⟩
      · -- the slot was queued: pass 2 patched it with the label's address
        obtain ⟨ln2, a2, hla2, hval⟩ := hp_all (L, offs) (alookup_mem ho) s hso
        rw [hla] at hla2
        injection hla2 with hla2
        injection hla2 with h1 h2
        rw [hval, h2]
      · -- the slot was patched eagerly in pass 1 and pass 2 must not clobber it
        rw [hla] at hla1
        injection hla1 with hla1
        injection hla1 with h1 h2
        subst h1
        subst h2
        by_cases hsin : s ∈ needFlat st.need_labels
        · obtain ⟨q, hq, hsq⟩ := mem_needFlat_iff.mp hsin
          have href2 : (q.1, s) ∈ st.refs := hInv.need_refs q hq s hsq
          have hqL : q.1 = L :=
            congrArg Prod.fst (List.inj_on_of_nodup_map hInv.refs_nodup href2 hs rfl)
          obtain ⟨ln2, a2, hla2, hval⟩ := hp_all q hq s hsq
          rw [hqL, hla] at hla2
          injection hla2 with hla2
          injection hla2 with h1 h2
          rw [hval, h2]
        · rw [hp_untouched s hsin]
          exact hb
  · -- the label is defined nowhere: assembling never succeeds
    intro hnotdef
    have hnever : ∀ st, pass1 code bios_memory = .ok st →
        alookup L st.label_locations = none ∧
        ∃ offs, alookup L st.need_labels = some offs ∧ offs ≠ [] := by
      intro st hp1
      have hInv := pass1_inv hp1
      have hnone : alookup L st.label_locations = none := by
        rcases halo : alookup L st.label_locations with _ | v
        · rfl
        · exfalso
          apply hnotdef
          rw [← hInv.labels_mem L, halo]
          rfl
      obtain ⟨s, hs⟩ := hInv.refs_complete L href
      rcases hInv.refs_status L s hs with ⟨offs, ho, hso⟩ | ⟨ln1, a1, hla1, _⟩
      · refine ⟨hnone, offs, ho, ?_⟩
        intro hnil
        rw [hnil] at hso
        cases hso
      · rw [hnone] at hla1
        cases hla1
    constructor
    · intro bios' data' hok
      obtain ⟨st, hp1, hpn⟩ := assemble_ok_parts hok
      obtain ⟨hnone, offs, ho, hne⟩ := hnever st hp1
      obtain ⟨ln, a, hla⟩ := patchNeeds_ok_lookup hpn L offs ho hne
      rw [hnone] at hla
      cases hla
    · intro st hp1
      obtain ⟨hnone, offs, ho, hne⟩ := hnever st hp1
      rcases hpn : patchNeeds st.label_locations st.need_labels st.bios with ⟨e, m⟩ | b2
      · have he : e = .InvalidLabel := patchNeeds_err hpn
        subst he
        refine ⟨m, data_memory, ?_⟩
        rw [assemble, hp1]
        dsimp only
        rw [hpn]
      · exfalso
        obtain ⟨ln, a, hla⟩ := patchNeeds_ok_lookup hpn L offs ho hne
        rw [hnone] at hla
        cases hla

/-- Witness for C2: `jmp $end` before `end:` resolves the operand byte at
offset 1 to the label's offset 2, and `jmp $missing` with no definition
never assembles. -/
theorem assemble_jmp_label_resolution_witness :
    (assemble [AssemblyLine.Op (OpCode.Jmp ("missing".data))] zeroMem zeroMem).isOkB = false ∧
    (assemble [AssemblyLine.Op (OpCode.Jmp ("end".data)), AssemblyLine.Label ("end".data)]
      zeroMem zeroMem).biosAt 1 = some 2 := by
  constructor
  · cases hE : assemble [AssemblyLine.Op (OpCode.Jmp ("missing".data))] zeroMem zeroMem with
    | ok b d =>
      exact absurd hE
        (((assemble_jmp_label_resolution [AssemblyLine.Op (OpCode.Jmp ("missing".data))]
          zeroMem zeroMem ("missing".data) (Or.inl (by decide))).2 (by decide)).1 b d)
    | err e b d => rfl
  · cases hE : assemble [AssemblyLine.Op (OpCode.Jmp ("end".data)),
        AssemblyLine.Label ("end".data)] zeroMem zeroMem with
    | ok b d =>
      obtain ⟨st, ln, a, hp1, hla, ⟨s0, hs0⟩, hall⟩ :=
        (assemble_jmp_label_resolution [AssemblyLine.Op (OpCode.Jmp ("end".data)),
          AssemblyLine.Label ("end".data)] zeroMem zeroMem ("end".data)
          (Or.inl (by decide))).1 (by decide) b d hE
      have hp1c : pass1 [AssemblyLine.Op (OpCode.Jmp ("end".data)),
          AssemblyLine.Label ("end".data)] zeroMem =
          Except.ok (⟨[(("end".data), (1, 2))], [], [(("end".data), [1])], [],
            2, 0, memWrite (memWrite zeroMem 0 4) 1 0,
            [(("end".data), 1)]⟩ : Pass1State) := rfl
      rw [hp1c] at hp1
      injection hp1 with hst
      rw [← hst] at hla hall
      have hla2 : alookup ("end".data)
          [(("end".data), ((1 : Nat), (2 : Nat)))] = some (1, 2) := by decide
      rw [hla2] at hla
      injection hla with hla
      injection hla with h1 h2
      have hmem : (("end".data), (1 : Nat)) ∈ [(("end".data), (1 : Nat))] :=
        List.mem_singleton.mpr rfl
      have hb1 := hall 1 hmem
      rw [← h2] at hb1
      rw [AsmResult.biosAt, hb1]
    | err e b d =>
      have hok : (assemble [AssemblyLine.Op (OpCode.Jmp ("end".data)),
          AssemblyLine.Label ("end".data)] zeroMem zeroMem).isOkB = true := rfl
      rw [hE] at hok
      cases hok

/-! ## C1: the classifier's all-or-nothing contract -/

/-- The (ordered) nodes of the lines that classify successfully. -/
def okListOf : List Str → List AssemblyLine
  | [] => []
  | l :: rest =>
    match assemblyLineFromStr l with
    | .ok node => node :: okListOf rest
    | .error _ => okListOf rest

/-- The (ordered) diagnostics of exactly the lines that fail to classify,
with their zero-based line indices starting at `n`. -/
def errListOf : List Str → Nat → List CodeError
  | [], _ => []
  | l :: rest, n =>
    match assemblyLineFromStr l with
    | .ok _ => errListOf rest (n + 1)
    | .error e => { line := n, error := e } :: errListOf rest (n + 1)

theorem classifyAll_eq (ls : List Str) : ∀ n, classifyAll ls n = (okListOf ls, errListOf ls n) := by
  induction ls with
  | nil => intro n; rfl
  | cons l rest ih =>
    intro n
    rw [classifyAll, ih n.succ]
    cases h : assemblyLineFromStr l with
    | ok node => simp only [okListOf, errListOf, h]
    | error e => simp only [okListOf, errListOf, h]

theorem errListOf_nil_length : ∀ (ls : List Str) (n : Nat), errListOf ls n = [] →
    (okListOf ls).length = ls.length := by
  intro ls
  induction ls with
  | nil => intro n _; rfl
  | cons l rest ih =>
    intro n herr
    rw [errListOf] at herr
    cases h : assemblyLineFromStr l with
    | ok node =>
      rw [h] at herr
      rw [okListOf, h]
      simp only [List.length_cons]
      rw [ih (n + 1) herr]
    | error e =>
      rw [h] at herr
      cases herr

/-- C1: `parse_code` classifies every line of the source text and returns
either the complete ordered node list (all lines valid, one node per line)
or the complete ordered list of (zero-based line index, error) diagnostics
covering exactly the failing lines — never a mixture, and it never stops
at the first failing line. -/
theorem parse_code_all_or_nothing (code : Str) :
    (errListOf (rustLines code) 0 = [] ∧
      parse_code code = .ok (okListOf (rustLines code)) ∧
      (okListOf (rustLines code)).length = (rustLines code).length) ∨
    (errListOf (rustLines code) 0 ≠ [] ∧
      parse_code code = .error (errListOf (rustLines code) 0)) := by
  have hc := classifyAll_eq (rustLines code) 0
  by_cases herr : errListOf (rustLines code) 0 = []
  · left
    refine ⟨herr, ?_, errListOf_nil_length _ _ herr⟩
    rw [parse_code, hc]
    dsimp only
    rw [herr]
    rfl
  · right
    refine ⟨herr, ?_⟩
    rw [parse_code, hc]
    dsimp only
    cases he : errListOf (rustLines code) 0 with
    | nil => exact absurd he herr
    | cons a rest => rfl

/-! ## C9, C5, C3, C4 -/

/-- C9: the label validator accepts `"$foo"` and `"@foo"`, both normalizing
to the same body `"foo"`; it rejects `"$5"` with the numeric-name error and
`"$rga"` with the register-name error. -/
theorem label_validator_examples :
    labelFromStr ("$foo".data) = .ok ("foo".data) ∧
    labelFromStr ("@foo".data) = .ok ("foo".data) ∧
    labelFromStr ("$5".data) = .error .NumericName ∧
    labelFromStr ("$rga".data) = .error .RegisterName := by decide

/-- C5 counterexample: the claim says a 1-byte instruction encodes
successfully into a buffer with 2 remaining bytes (failure iff fewer bytes
than the instruction's encoded length); the encoder actually fails there. -/
theorem opRead_capacity_claim_false :
    ¬ ((opcodeRead (OpCode.Add : OpCode Nat) 2 = none) ↔
      2 < (opBytes (OpCode.Add : OpCode Nat)).length) := by decide

/-- C5 amended: encoding fails if and only if the destination buffer has
fewer than 3 remaining bytes — the size of the fixed `[0u8; 3]` scratch
array — regardless of the instruction's actual 1-3 byte encoded length; in
particular a 1-byte instruction fails with exactly 1 or 2 remaining bytes. -/
theorem opRead_fails_iff_lt_three :
    (∀ (op : OpCode Nat) (bufLen : Nat), opcodeRead op bufLen = none ↔ bufLen < 3) ∧
    opcodeRead (OpCode.Add : OpCode Nat) 1 = none ∧
    opcodeRead (OpCode.Add : OpCode Nat) 2 = none := by
  refine ⟨?_, by decide, by decide⟩
  intro op bufLen
  rw [opcodeRead]
  by_cases h : 3 ≤ bufLen
  · rw [if_pos h]
    constructor
    · intro hc
      cases hc
    · intro hc
      omega
  · rw [if_neg h]
    constructor
    · intro _
      omega
    · intro _
      rfl

/-- C3 (code bug): in `let $pad = 9 / mov %rga $x / let $x = 7` the operand
of `mov %rga $x` is a forward reference to data label `x`, whose assigned
data-memory offset is 1; `assemble` succeeds but leaves the operand
placeholder byte (instruction image offset 2) at 0, because the forward
data fixup is queued with an empty offset list (`or_insert_with(|| vec![])`)
and the pass-2 data patch writes to the data image instead of the
instruction image. -/
theorem assemble_forward_data_label_placeholder_bug :
    dataOffsetAt [AssemblyLine.MemoryDeclaration ("pad".data) 9,
      AssemblyLine.Op (OpCode.MovAddr .RGA ("x".data)),
      AssemblyLine.MemoryDeclaration ("x".data) 7] zeroMem ("x".data) = some 1 ∧
    (assemble [AssemblyLine.MemoryDeclaration ("pad".data) 9,
      AssemblyLine.Op (OpCode.MovAddr .RGA ("x".data)),
      AssemblyLine.MemoryDeclaration ("x".data) 7] zeroMem zeroMem).biosAt 2 = some 0 ∧
    (assemble [AssemblyLine.MemoryDeclaration ("pad".data) 9,
      AssemblyLine.Op (OpCode.MovAddr .RGA ("x".data)),
      AssemblyLine.MemoryDeclaration ("x".data) 7] zeroMem zeroMem).biosAt 2 ≠ some 1 := by
  refine ⟨by decide, by decide, by decide⟩

/-- C4 (code bug): `mov %rga $undef` references data label `undef` that no
`let` declares, yet `assemble` succeeds: the lone forward reference is
queued with an empty offset list, so the pass-2 unresolved-data-label check
(`InvalidMemoryLabel`) never fires. -/
theorem assemble_undefined_data_label_accepted_bug :
    (assemble [AssemblyLine.Op (OpCode.MovAddr .RGA ("undef".data))]
      zeroMem zeroMem).isOkB = true := by decide

/-! ## C10: multi-sigil stripping in the label validator -/

theorem dropWhile_replicate_append (c : Char) :
    ∀ (k : Nat) (cs : Str),
    (List.replicate k c ++ cs).dropWhile (fun x => x = c) = cs.dropWhile (fun x => x = c) := by
  intro k
  induction k with
  | zero => intro cs; rfl
  | succ k ih =>
    intro cs
    rw [List.replicate_succ, List.cons_append, List.dropWhile_cons]
    simp only [decide_eq_true_eq, if_pos rfl]
    exact ih cs

theorem dropWhile_eq_self_of_head {p : Char → Bool} {cs : Str}
    (h : ∀ c, cs.head? = some c → p c = false) : cs.dropWhile p = cs := by
  cases cs with
  | nil => rfl
  | cons a l =>
    rw [List.dropWhile_cons, h a rfl]
    rfl

/-- C10: the label validator strips every leading `'$'` and then every
leading `'@'`: a token of `k ≥ 1` `'$'` sigils followed by a body `B` (no
leading sigil, already lower-case, non-numeric, non-register) is accepted
and normalizes to `B` — e.g. `"$$foo"` yields `"foo"` — while `"@$foo"` is
accepted with body `"$foo"`, which still contains the `'$'`; so two
distinct accepted spellings denote distinct labels whose bodies differ
only by an embedded sigil. -/
theorem label_sigil_stripping (B : Str) (k : Nat) (hk : 0 < k)
    (hd1 : B.head? ≠ some '$') (hd2 : B.head? ≠ some '@')
    (hlower : toLowerStr B = B) (hnum : parseU8 B = none)
    (hreg : Register.fromStr ('%' :: B) = .error .InvalidRegister) :
    labelFromStr (List.replicate k '$' ++ B) = .ok B ∧
    labelFromStr ("$$foo".data) = .ok ("foo".data) ∧
    labelFromStr ("@$foo".data) = .ok ("$foo".data) ∧
    ("$foo".data : Str) ≠ "foo".data := by
  refine ⟨?_, by decide, by decide, by decide⟩
  have hhd : (List.replicate k '$' ++ B).head? = some '$' := by
    cases k with
    | zero => cases hk
    | succ k => rfl
  have hB1 : B.dropWhile (fun c => decide (c = '$')) = B :=
    dropWhile_eq_self_of_head (fun c hc => by
      rw [decide_eq_false_iff_not]
      exact fun he => hd1 (he ▸ hc))
  have hB2 : B.dropWhile (fun c => decide (c = '@')) = B :=
    dropWhile_eq_self_of_head (fun c hc => by
      rw [decide_eq_false_iff_not]
      exact fun he => hd2 (he ▸ hc))
  rw [labelFromStr, if_pos (Or.inl hhd)]
  rw [dropWhile_replicate_append, hB1, hB2, hlower]
  dsimp only
  rw [hnum]
  simp only [Option.isSome_none, Bool.false_eq_true, if_false]
  rw [hreg]

/-- Witness for C10 at `B = "foo"`, `k = 2`: `"$$foo"` validates to `"foo"`. -/
theorem label_sigil_stripping_witness :
    labelFromStr (List.replicate 2 '$' ++ "foo".data) = .ok ("foo".data) :=
  (label_sigil_stripping ("foo".data) 2 (by decide) (by decide) (by decide)
    (by decide) (by decide) (by decide)).1

/-! ## C7: operand disambiguation order for `mov` and `cmp_call` -/

theorem splitWsAux_no_ws : ∀ (t acc : Str), (∀ c ∈ t, isWs c = false) →
    splitWsAux t acc = if (acc.reverse ++ t).isEmpty then [] else [acc.reverse ++ t] := by
  intro t
  induction t with
  | nil =>
    intro acc h
    rw [splitWsAux, List.append_nil]
    cases acc with
    | nil => rfl
    | cons a l => simp [List.isEmpty_iff]
  | cons c cs ih =>
    intro acc h
    have hc : isWs c = false := h c (List.mem_cons_self _ _)
    rw [splitWsAux]
    simp only [hc, Bool.false_eq_true, if_false]
    rw [ih (c :: acc) (fun x hx => h x (List.mem_cons_of_mem _ hx))]
    rw [List.reverse_cons, List.append_assoc]
    rfl

theorem splitWs_token (t : Str) (h : ∀ c ∈ t, isWs c = false) (hne : t ≠ []) :
    splitWsAux t [] = [t] := by
  rw [splitWsAux_no_ws t [] h]
  cases t with
  | nil => exact absurd rfl hne
  | cons a l => rfl

theorem splitWs_mov_line (t : Str) (h : ∀ c ∈ t, isWs c = false) (hne : t ≠ []) :
    splitWs ("mov %rga ".data ++ t) = ["mov".data, "%rga".data, t] := by
  have h2 : splitWs ("mov %rga ".data ++ t) =
      "mov".data :: "%rga".data :: splitWsAux t [] := rfl
  rw [h2, splitWs_token t h hne]

theorem splitWs_cmp_call_line (t : Str) (h : ∀ c ∈ t, isWs c = false) (hne : t ≠ []) :
    splitWs ("cmp_call ".data ++ t) = ["cmp_call".data, t] := by
  have h2 : splitWs ("cmp_call ".data ++ t) =
      "cmp_call".data :: splitWsAux t [] := rfl
  rw [h2, splitWs_token t h hne]

/-- The `%`-prefixed mnemonic of a register, as written in source text. -/
def registerName : Register → Str
  | .RGA => "%rga".data
  | .RGB => "%rgb".data
  | .RGC => "%rgc".data
  | .RGD => "%rgd".data
  | .RET => "%ret".data
  | .MEM => "%mem".data

/-- C7 counterexample: the claim says `cmp_call R` classifies with a
register component for every register mnemonic `R`; in fact `cmp_call`
never tries a register (the opcode has no register-component variant) and
`cmp_call %rga` fails with the wrapped label-validation error. -/
theorem cmp_call_register_component_false :
    assemblyLineFromStr ("cmp_call %rga".data) =
      .error (.MovInvalidFrom .BadSigil) := by decide

/-- C7 amended: for a whitespace-free operand token `t`, `mov`'s source
operand tries, in strict order, exact register name, else unsigned 8-bit
literal, else validated label, first success winning, the error wrapping
the label-validation failure; `cmp_call`'s component tries only literal
then label (no register attempt), so for every register mnemonic `R` the
line `cmp_call R` fails with the wrapped sigil error. -/
theorem mov_cmp_call_operand_order (t : Str)
    (hws : ∀ c ∈ t, isWs c = false) (hne : t ≠ []) :
    (assemblyLineFromStr ("mov %rga ".data ++ t) =
      match Register.fromStr t with
      | .ok r => .ok (.Op (.MovReg .RGA r))
      | .error _ =>
        match parseU8 t with
        | some imm => .ok (.Op (.MovImm .RGA imm))
        | none =>
          match labelFromStr t with
          | .ok l => .ok (.Op (.MovAddr .RGA l))
          | .error e => .error (.MovInvalidFrom e)) ∧
    (assemblyLineFromStr ("cmp_call ".data ++ t) =
      match parseU8 t with
      | some imm => .ok (.Op (.CmpCallImm imm))
      | none =>
        match labelFromStr t with
        | .ok l => .ok (.Op (.CmpCallAddr l))
        | .error e => .error (.MovInvalidFrom e)) ∧
    (∀ r : Register, assemblyLineFromStr ("cmp_call ".data ++ registerName r) =
      .error (.MovInvalidFrom .BadSigil)) := by
  refine ⟨?_, ?_, ?_⟩
  · rw [assemblyLineFromStr, splitWs_mov_line t hws hne]
    rfl
  · rw [assemblyLineFromStr, splitWs_cmp_call_line t hws hne]
    rfl
  · intro r
    cases r <;> decide

/-- Witness for C7 (amended) at concrete operand tokens. -/
theorem mov_cmp_call_operand_order_witness :
    assemblyLineFromStr ("mov %rga %rgb".data) = .ok (.Op (.MovReg .RGA .RGB)) ∧
    assemblyLineFromStr ("cmp_call 7".data) = .ok (.Op (.CmpCallImm 7)) := by
  constructor
  · exact (mov_cmp_call_operand_order ("%rgb".data) (by decide) (by decide)).1
  · exact (mov_cmp_call_operand_order ("7".data) (by decide) (by decide)).2.1

/-! ## C8: buffer state on fatal errors -/

def sevenMem : Mem := fun _ => 7

/-- C8 counterexample: on the duplicate-label program `add / foo: / foo:`
`assemble` returns a fatal error, yet the instruction image handed in by
the caller (all bytes 7) now holds the `add` opcode byte 0 at offset 0 —
the buffers are NOT left unchanged from their state at entry. -/
theorem assemble_error_mutates_bios :
    (assemble [AssemblyLine.Op OpCode.Add, AssemblyLine.Label ("foo".data),
      AssemblyLine.Label ("foo".data)] sevenMem sevenMem).errBiosAt 0 = some 0 ∧
    (assemble [AssemblyLine.Op OpCode.Add, AssemblyLine.Label ("foo".data),
      AssemblyLine.Label ("foo".data)] sevenMem sevenMem).errBiosAt 0 ≠
      some (sevenMem 0) := by
  refine ⟨by decide, by decide⟩

/-- C8 amended: on every fatal error `assemble` returns the structured
error and no success payload, but the caller's buffers are not rolled
back: the instruction image may retain partial pass-1/pass-2 writes
(`assemble_error_mutates_bios`), while the data image is unchanged from
entry unless the error is the unresolved-data-label error (the only path
that writes the data image before failing). -/
theorem assemble_error_data_unchanged :
    ∀ (code : List AssemblyLine) (bios_memory data_memory : Mem) (e : AssemblingError)
      (b d : Mem), assemble code bios_memory data_memory = .err e b d →
      e ≠ .InvalidMemoryLabel → d = data_memory := by
  intro code bios data e b d h hne
  rw [assemble] at h
  rcases hp : pass1 code bios with ⟨e1, b1⟩ | st
  · rw [hp] at h
    dsimp only at h
    injection h with h1 h2 h3
    exact h3.symm
  · rw [hp] at h
    dsimp only at h
    rcases hpn : patchNeeds st.label_locations st.need_labels st.bios with ⟨e1, b1⟩ | bios2
    · rw [hpn] at h
      dsimp only at h
      injection h with h1 h2 h3
      exact h3.symm
    · rw [hpn] at h
      dsimp only at h
      rcases hpm : patchMemNeeds st.memory_locations st.need_memory_labels data with
        ⟨e1, d1⟩ | d2
      · rw [hpm] at h
        dsimp only at h
        injection h with h1 h2 h3
        exact absurd (h1 ▸ patchMemNeeds_err hpm) hne
      · rw [hpm] at h
        dsimp only at h
        cases h

/-- Witness for C8 (amended): on the duplicate-label program the error is
not the unresolved-data-label error, so the data image is unchanged. -/
theorem assemble_error_data_unchanged_witness :
    (assemble [AssemblyLine.Op OpCode.Add, AssemblyLine.Label ("foo".data),
      AssemblyLine.Label ("foo".data)] sevenMem sevenMem).errDataAt 3 =
      some (sevenMem 3) := by
  have hE : assemble [AssemblyLine.Op OpCode.Add, AssemblyLine.Label ("foo".data),
      AssemblyLine.Label ("foo".data)] sevenMem sevenMem =
      .err (.DuplicateLabel ("foo".data) 1 2) (memWrite sevenMem 0 0) sevenMem := rfl
  have h := assemble_error_data_unchanged _ _ _ _ _ _ hE (fun hc => by cases hc)
  rw [hE]
  show some (sevenMem 3) = some (sevenMem 3)
  exact congrArg (fun m => some (m 3)) h

/-- The i-th distinct data-label name of the C6 program. -/
def letName (i : Nat) : Str := List.replicate (i + 1) 'a'

/-- The 257-`let` program that overflows the 8-bit data cursor. -/
def bigLetProgram : List AssemblyLine :=
  ((List.range 257).map letName).map (fun n => AssemblyLine.MemoryDeclaration n 0)

theorem letName_inj {i j : Nat} (h : letName i = letName j) : i = j := by
  have := congrArg List.length h
  simp [letName] at this
  exact this

theorem letNames_nodup : ((List.range 257).map letName).Nodup := by
  refine List.Nodup.map_on ?_ (List.nodup_range 257)
  intro x _ y _ h
  exact letName_inj h

/-- The data-label table produced by a run of consecutive `let`s starting
at line `k` with data cursor `d` (all with initial value 0). -/
def memLocsFrom : List Str → Nat → Nat → List (Str × Nat × Nat × Nat)
  | [], _, _ => []
  | n :: rest, k, d => (n, (k, d, 0)) :: memLocsFrom rest (k + 1) ((d + 1) % 256)

theorem map_fst_memLocsFrom : ∀ (names : List Str) (k d : Nat),
    (memLocsFrom names k d).map Prod.fst = names := by
  intro names
  induction names with
  | nil => intro k d; rfl
  | cons n rest ih =>
    intro k d
    rw [memLocsFrom, List.map_cons, ih]

theorem memLocsFrom_mem : ∀ (names : List Str) (k d : Nat), d < 256 →
    ∀ (i : Nat) (h : i < names.length),
    (names.get ⟨i, h⟩, (k + i, (d + i) % 256, 0)) ∈ memLocsFrom names k d := by
  intro names
  induction names with
  | nil =>
    intro k d _ i h
    exact absurd h (Nat.not_lt_zero i)
  | cons n rest ih =>
    intro k d hd i h
    cases i with
    | zero =>
      have h0 : (d + 0) % 256 = d := by
        rw [Nat.add_zero, Nat.mod_eq_of_lt hd]
      rw [h0]
      exact List.mem_cons_self _ _
    | succ i =>
      have hi : i < rest.length := Nat.lt_of_succ_lt_succ h
      have hmem := ih (k + 1) ((d + 1) % 256) (Nat.mod_lt _ (by omega)) i hi
      have harith1 : k + 1 + i = k + (i + 1) := by omega
      have harith2 : ((d + 1) % 256 + i) % 256 = (d + (i + 1)) % 256 := by
        rw [Nat.mod_add_mod]
        congr 1
        omega
      rw [harith1, harith2] at hmem
      exact List.mem_cons_of_mem _ hmem

theorem pass1Go_memdecls : ∀ (names : List Str) (k : Nat) (st : Pass1State),
    names.Nodup → (∀ n ∈ names, alookup n st.memory_locations = none) →
    ∃ st', pass1Go (names.map (fun n => AssemblyLine.MemoryDeclaration n 0)) k st = .ok st' ∧
      st'.memory_locations = st.memory_locations ++ memLocsFrom names k st.cur_data_offset ∧
      st'.label_locations = st.label_locations ∧
      st'.need_labels = st.need_labels ∧
      st'.need_memory_labels = st.need_memory_labels ∧
      st'.bios = st.bios := by
  intro names
  induction names with
  | nil =>
    intro k st _ _
    exact ⟨st, rfl, by rw [memLocsFrom, List.append_nil], rfl, rfl, rfl, rfl⟩
  | cons n rest ih =>
    intro k st hnd hfresh
    rw [List.map_cons, pass1Go, pass1Line]
    rw [hfresh n (List.mem_cons_self _ _)]
    have hfresh' : ∀ m ∈ rest,
        alookup m (st.memory_locations ++ [(n, (k, st.cur_data_offset, 0))]) = none := by
      intro m hm
      rw [alookup_append_none _ (hfresh m (List.mem_cons_of_mem _ hm))]
      have hne : n ≠ m := fun he => (List.nodup_cons.mp hnd).1 (he ▸ hm)
      simp [alookup, hne]
    obtain ⟨st', h1, h2, h3, h4, h5, h6⟩ :=
      ih (k + 1)
        ({ st with
          memory_locations := st.memory_locations ++ [(n, (k, st.cur_data_offset, 0))],
          cur_data_offset := (st.cur_data_offset + 1) % 256 })
        (List.nodup_cons.mp hnd).2 hfresh'
    refine ⟨st', h1, ?_, h3, h4, h5, h6⟩
    rw [h2]
    dsimp only
    rw [memLocsFrom, List.append_assoc]
    rfl

/-- C6 (code bug): the data-memory cursor is advanced by an unchecked
`cur_data_offset += 1`, so a program of 257 distinct `let` declarations
assembles successfully (release-mode wrapping; a debug build would panic):
no fatal overflow error is reported, and the 1st and 257th data labels are
both assigned data-memory offset 0 by wraparound. -/
theorem assemble_data_cursor_wraps_bug :
    (assemble bigLetProgram zeroMem zeroMem).isOkB = true ∧
    dataOffsetAt bigLetProgram zeroMem (letName 0) = some 0 ∧
    dataOffsetAt bigLetProgram zeroMem (letName 256) = some 0 ∧
    letName 0 ≠ letName 256 := by
  obtain ⟨st', hgo, hmem, hlab, hneedl, hneedm, hbios⟩ :=
    pass1Go_memdecls ((List.range 257).map letName) 0 (pass1Init zeroMem)
      letNames_nodup (fun n _ => rfl)
  have hp : pass1 bigLetProgram zeroMem = .ok st' := hgo
  have hmem2 : st'.memory_locations = memLocsFrom ((List.range 257).map letName) 0 0 := by
    rw [hmem]
    rfl
  have hkeys : (st'.memory_locations.map Prod.fst).Nodup := by
    rw [hmem2, map_fst_memLocsFrom]
    exact letNames_nodup
  have hlen : (257 : Nat) ≤ ((List.range 257).map letName).length := by
    rw [List.length_map, List.length_range]
  have hget : ∀ (i : Nat) (h : i < ((List.range 257).map letName).length),
      ((List.range 257).map letName).get ⟨i, h⟩ = letName i := by
    intro i h
    simp
  have hmem0 : (letName 0, ((0 : Nat), (0 : Nat), (0 : Nat))) ∈ st'.memory_locations := by
    rw [hmem2]
    have h0 := memLocsFrom_mem ((List.range 257).map letName) 0 0 (by omega) 0 (by omega)
    rw [hget 0] at h0
    exact h0
  have hmem256 : (letName 256, ((256 : Nat), (0 : Nat), (0 : Nat))) ∈ st'.memory_locations := by
    rw [hmem2]
    have h256 := memLocsFrom_mem ((List.range 257).map letName) 0 0 (by omega) 256 (by omega)
    rw [hget 256] at h256
    have harith : ((0 : Nat) + 256) % 256 = 0 := by omega
    rw [harith] at h256
    exact h256
  have hneedl2 : st'.need_labels = [] := by rw [hneedl]; rfl
  have hneedm2 : st'.need_memory_labels = [] := by rw [hneedm]; rfl
  refine ⟨?_, ?_, ?_, by decide⟩
  · rw [assemble, hp]
    dsimp only
    rw [hneedl2]
    have hP : patchNeeds st'.label_locations [] st'.bios = .ok st'.bios := rfl
    rw [hP]
    dsimp only
    rw [hneedm2]
    have hM : patchMemNeeds st'.memory_locations [] zeroMem = .ok zeroMem := rfl
    rw [hM]
    rfl
  · rw [dataOffsetAt, hp]
    dsimp only
    rw [alookup_of_mem_nodupKeys hkeys hmem0]
    rfl
  · rw [dataOffsetAt, hp]
    dsimp only
    rw [alookup_of_mem_nodupKeys hkeys hmem256]
    rfl
